import Mathlib

/-!
# Verification of the catalog cross-match routine (`join_catalogs`)

Shallow embedding of the `join_catalogs` function defined in the
standard-photometry notebook, together with the candidate-generation step
that feeds it.  The source routine, verbatim:

```
def join_catalogs(index_table, left_table, right_table):
    matched = table.hstack([index_table, left_table,
                            right_table[index_table['index']]])
    matched.sort(['index', 'distance'])
    index = matched["index"]
    good_match = [True]
    good_match += [star != oldstar for star, oldstar in zip(index, index[1:])]
    nearby = matched['distance'] < coord.Angle('3 arcsec').degree
    result = matched[good_match * nearby]
    del result['index', 'distance']
    return result
```

`index_table` has one row per left-table row, holding the index of the
nearest right-table record and the angular distance to it (in degrees,
produced externally by `SkyCoord.match_to_catalog_sky`).  Angular distances
are modelled as rationals (they are data fed into the routine, not computed
by it).  The 3-arcsec cutoff is hardcoded in the source as
`coord.Angle('3 arcsec').degree = 3/3600` degrees; the embedding exposes it
as the parameter `maxSep` so that the tolerance-dependent properties can be
stated, and the source's behaviour is the instance `maxSep = 3/3600`.
-/

namespace CatalogMatch

/-- One row of the `hstack`-ed table `matched`: the right-catalog index,
the angular distance (degrees), the left record and the looked-up right
record.  `L` and `R` are the (opaque) row types of the two catalogs. -/
structure Row (L R : Type) where
  index : ℕ
  distance : ℚ
  left : L
  right : R
deriving DecidableEq, Repr

/-- `table.hstack([index_table, left_table, right_table[index_table['index']]])`:
row `j` pairs the `j`-th index/distance entry with the `j`-th left record and
the right record at position `index_j`.  Out-of-range indices (which raise in
the source and never occur in its usage, since the indices come from a
nearest-neighbour search over `rt`) are totalised with the default `dflt`. -/
def hstackRows {L R : Type} (idx : List (ℕ × ℚ)) (lt : List L) (rt : List R)
    (dflt : R) : List (Row L R) :=
  (idx.zip lt).map (fun p => ⟨p.1.1, p.1.2, p.2, rt.getD p.1.1 dflt⟩)

/-- The sort key of `matched.sort(['index', 'distance'])`: lexicographic
(index, distance), ascending. -/
def lexLe {L R : Type} (a b : Row L R) : Prop :=
  a.index < b.index ∨ (a.index = b.index ∧ a.distance ≤ b.distance)

instance {L R : Type} : DecidableRel (lexLe (L := L) (R := R)) := fun a b => by
  unfold lexLe; infer_instance

instance {L R : Type} : IsTotal (Row L R) lexLe where
  total a b := by
    rcases Nat.lt_trichotomy a.index b.index with h | h | h
    · exact Or.inl (Or.inl h)
    · rcases le_total a.distance b.distance with hd | hd
      · exact Or.inl (Or.inr ⟨h, hd⟩)
      · exact Or.inr (Or.inr ⟨h.symm, hd⟩)
    · exact Or.inr (Or.inl h)

instance {L R : Type} : IsTrans (Row L R) lexLe where
  trans a b c hab hbc := by
    rcases hab with h1 | ⟨h1, d1⟩
    · rcases hbc with h2 | ⟨h2, _⟩
      · exact Or.inl (h1.trans h2)
      · exact Or.inl (h2 ▸ h1)
    · rcases hbc with h2 | ⟨h2, d2⟩
      · exact Or.inl (h1 ▸ h2)
      · exact Or.inr ⟨h1.trans h2, d1.trans d2⟩

/-- `matched.sort(['index', 'distance'])`. -/
def sortRows {L R : Type} (l : List (Row L R)) : List (Row L R) :=
  List.insertionSort lexLe l

/-- The `good_match` mask: `[True]` followed by, at each later position,
whether the index differs from the index at the preceding position. -/
def goodMatch : List ℕ → List Bool
  | [] => [true]
  | i :: is => true :: List.zipWith (fun a b => decide (a ≠ b)) (i :: is) is

/-- Boolean-mask row selection, `matched[mask]`.  The two masks produced in
the source are combined elementwise; when the table is empty the length-1
`good_match` list broadcasts against the empty `nearby` column to an empty
mask, which the truncating `zipWith` below reproduces. -/
def maskFilter {α : Type} : List α → List Bool → List α
  | [], _ => []
  | _ :: _, [] => []
  | x :: xs, true :: bs => x :: maskFilter xs bs
  | _ :: xs, false :: bs => maskFilter xs bs

/-- The rows of `result = matched[good_match * nearby]`, before the `index`
and `distance` columns are deleted. -/
def joinRows {L R : Type} (maxSep : ℚ) (idx : List (ℕ × ℚ)) (lt : List L)
    (rt : List R) (dflt : R) : List (Row L R) :=
  let matched := sortRows (hstackRows idx lt rt dflt)
  maskFilter matched
    (List.zipWith (fun a b => a && b) (goodMatch (matched.map Row.index))
      (matched.map (fun r => decide (r.distance < maxSep))))

/-- `join_catalogs`: the returned table, with the `index` and `distance`
columns deleted, leaving each row as its left-record and right-record parts. -/
def join_catalogs {L R : Type} (maxSep : ℚ) (idx : List (ℕ × ℚ)) (lt : List L)
    (rt : List R) (dflt : R) : List (L × R) :=
  (joinRows maxSep idx lt rt dflt).map (fun r => (r.left, r.right))

/-- First-of-each-run selection: keep a row iff its index differs from the
index of the immediately preceding row.  This is the recursive reading of the
`good_match` mask applied to `matched`. -/
def dedupGo {L R : Type} (p : Row L R) : List (Row L R) → List (Row L R)
  | [] => []
  | y :: ys => if y.index = p.index then dedupGo y ys else y :: dedupGo y ys

/-- The rows surviving the deduplication mask alone (no distance cutoff). -/
def dedupFirst {L R : Type} : List (Row L R) → List (Row L R)
  | [] => []
  | x :: xs => x :: dedupGo x xs

/-- The deduplicated candidate rows of a `join_catalogs` run: the sorted
`matched` table filtered by the `good_match` mask. -/
def dedupRows {L R : Type} (idx : List (ℕ × ℚ)) (lt : List L) (rt : List R)
    (dflt : R) : List (Row L R) :=
  dedupFirst (sortRows (hstackRows idx lt rt dflt))

/-! ## Reformulating the mask pipeline -/

theorem maskFilter_zipWith_and {α : Type} (p : α → Bool) :
    ∀ (l : List α) (g : List Bool),
      maskFilter l (List.zipWith (fun a b => a && b) g (l.map p)) =
        (maskFilter l g).filter p
  | [], g => by cases g <;> rfl
  | x :: xs, [] => rfl
  | x :: xs, b :: bs => by
    simp only [List.map_cons, List.zipWith_cons_cons, maskFilter]
    cases hb : b <;> cases hp : p x <;>
      simp [maskFilter, maskFilter_zipWith_and p xs bs, List.filter_cons, hp]

theorem maskFilter_goodMatch_go {L R : Type} :
    ∀ (p : Row L R) (l : List (Row L R)),
      maskFilter l
        (List.zipWith (fun a b => decide (a ≠ b)) (p.index :: l.map Row.index)
          (l.map Row.index)) = dedupGo p l
  | _, [] => rfl
  | p, y :: ys => by
    simp only [List.map_cons, List.zipWith_cons_cons]
    by_cases h : y.index = p.index
    · have hd : decide (p.index ≠ y.index) = false :=
        decide_eq_false (fun hn => hn h.symm)
      rw [hd]
      simp only [maskFilter, dedupGo, if_pos h]
      exact maskFilter_goodMatch_go y ys
    · have hd : decide (p.index ≠ y.index) = true :=
        decide_eq_true (fun hn => h hn.symm)
      rw [hd]
      simp only [maskFilter, dedupGo, if_neg h]
      exact congrArg (y :: ·) (maskFilter_goodMatch_go y ys)

theorem maskFilter_goodMatch {L R : Type} :
    ∀ l : List (Row L R),
      maskFilter l (goodMatch (l.map Row.index)) = dedupFirst l
  | [] => rfl
  | x :: xs => by
    simp only [List.map_cons, goodMatch, maskFilter, dedupFirst, if_pos]
    exact congrArg (x :: ·) (maskFilter_goodMatch_go x xs)

/-- The returned rows are exactly: deduplicate the sorted table, then apply
the strict distance cutoff. -/
theorem joinRows_eq_filter {L R : Type} (maxSep : ℚ) (idx : List (ℕ × ℚ))
    (lt : List L) (rt : List R) (dflt : R) :
    joinRows maxSep idx lt rt dflt =
      (dedupRows idx lt rt dflt).filter (fun r => decide (r.distance < maxSep)) := by
  unfold joinRows dedupRows
  rw [maskFilter_zipWith_and, maskFilter_goodMatch]

/-! ## Properties of deduplication on a sorted table -/

theorem dedupGo_sublist {L R : Type} :
    ∀ (p : Row L R) (l : List (Row L R)), (dedupGo p l).Sublist l
  | _, [] => List.Sublist.refl _
  | p, y :: ys => by
    unfold dedupGo
    by_cases h : y.index = p.index
    · simpa [h] using (dedupGo_sublist y ys).cons y
    · simpa [h] using (dedupGo_sublist y ys).cons₂ y

theorem dedupFirst_sublist {L R : Type} :
    ∀ l : List (Row L R), (dedupFirst l).Sublist l
  | [] => List.Sublist.refl _
  | x :: xs => (dedupGo_sublist x xs).cons₂ x

theorem index_lt_of_mem_dedupGo {L R : Type} :
    ∀ (p : Row L R) (l : List (Row L R)), List.Sorted lexLe (p :: l) →
      ∀ q ∈ dedupGo p l, p.index < q.index
  | p, [], _, q, hq => by simp [dedupGo] at hq
  | p, y :: ys, hs, q, hq => by
    obtain ⟨hhead, htail⟩ := List.sorted_cons.mp hs
    unfold dedupGo at hq
    by_cases h : y.index = p.index
    · rw [if_pos h] at hq
      exact h ▸ index_lt_of_mem_dedupGo y ys htail q hq
    · rw [if_neg h] at hq
      have hpy : p.index < y.index := by
        rcases hhead y (List.mem_cons_self y ys) with h1 | ⟨h1, _⟩
        · exact h1
        · exact absurd h1.symm h
      rcases List.mem_cons.mp hq with rfl | hq
      · exact hpy
      · exact hpy.trans (index_lt_of_mem_dedupGo y ys htail q hq)

theorem pairwise_index_lt_dedupGo {L R : Type} :
    ∀ (p : Row L R) (l : List (Row L R)), List.Sorted lexLe (p :: l) →
      (dedupGo p l).Pairwise (fun a b => a.index < b.index)
  | _, [], _ => List.Pairwise.nil
  | p, y :: ys, hs => by
    have htail := (List.sorted_cons.mp hs).2
    unfold dedupGo
    by_cases h : y.index = p.index
    · simpa [h] using pairwise_index_lt_dedupGo y ys htail
    · rw [if_neg h]
      exact List.Pairwise.cons (index_lt_of_mem_dedupGo y ys htail)
        (pairwise_index_lt_dedupGo y ys htail)

theorem pairwise_index_lt_dedupFirst {L R : Type} :
    ∀ l : List (Row L R), List.Sorted lexLe l →
      (dedupFirst l).Pairwise (fun a b => a.index < b.index)
  | [], _ => List.Pairwise.nil
  | x :: xs, hs =>
    List.Pairwise.cons (index_lt_of_mem_dedupGo x xs hs)
      (pairwise_index_lt_dedupGo x xs hs)

theorem dedupGo_min {L R : Type} :
    ∀ (p : Row L R) (l : List (Row L R)), List.Sorted lexLe (p :: l) →
      ∀ q ∈ dedupGo p l, ∀ row ∈ l, row.index = q.index →
        q.distance ≤ row.distance
  | p, [], _, q, hq, _, _, _ => by simp [dedupGo] at hq
  | p, y :: ys, hs, q, hq, row, hrow, hidx => by
    obtain ⟨hhead, htail⟩ := List.sorted_cons.mp hs
    unfold dedupGo at hq
    by_cases h : y.index = p.index
    · rw [if_pos h] at hq
      rcases List.mem_cons.mp hrow with rfl | hrow
      · exact absurd (hidx ▸ index_lt_of_mem_dedupGo row ys htail q hq)
          (lt_irrefl _)
      · exact dedupGo_min y ys htail q hq row hrow hidx
    · rw [if_neg h] at hq
      rcases List.mem_cons.mp hq with rfl | hq
      · rcases List.mem_cons.mp hrow with rfl | hrow
        · exact le_refl _
        · rcases (List.sorted_cons.mp htail).1 row hrow with h1 | ⟨_, h2⟩
          · exact absurd (hidx ▸ h1) (lt_irrefl _)
          · exact h2
      · rcases List.mem_cons.mp hrow with rfl | hrow
        · exact absurd (hidx ▸ index_lt_of_mem_dedupGo row ys htail q hq)
            (lt_irrefl _)
        · exact dedupGo_min y ys htail q hq row hrow hidx

/-- Every row kept by deduplication realises the minimum distance among all
rows of the sorted table sharing its right-catalog index. -/
theorem dedupFirst_min {L R : Type} :
    ∀ l : List (Row L R), List.Sorted lexLe l →
      ∀ q ∈ dedupFirst l, ∀ row ∈ l, row.index = q.index →
        q.distance ≤ row.distance
  | [], _, q, hq, _, _, _ => by simp [dedupFirst] at hq
  | x :: xs, hs, q, hq, row, hrow, hidx => by
    obtain ⟨hhead, htail⟩ := List.sorted_cons.mp hs
    rcases List.mem_cons.mp hq with rfl | hq
    · rcases List.mem_cons.mp hrow with rfl | hrow
      · exact le_refl _
      · rcases hhead row hrow with h1 | ⟨_, h2⟩
        · exact absurd (hidx ▸ h1) (lt_irrefl _)
        · exact h2
    · rcases List.mem_cons.mp hrow with rfl | hrow
      · exact absurd (hidx ▸ index_lt_of_mem_dedupGo row xs hs q hq) (lt_irrefl _)
      · exact dedupGo_min x xs hs q hq row hrow hidx

theorem dedupGo_covers {L R : Type} :
    ∀ (p : Row L R) (l : List (Row L R)), List.Sorted lexLe (p :: l) →
      ∀ row ∈ l,
        (row.index = p.index ∧ p.distance ≤ row.distance) ∨
          ∃ q ∈ dedupGo p l, q.index = row.index ∧ q.distance ≤ row.distance
  | p, [], _, row, hrow => by simp at hrow
  | p, y :: ys, hs, row, hrow => by
    obtain ⟨hhead, htail⟩ := List.sorted_cons.mp hs
    unfold dedupGo
    by_cases h : y.index = p.index
    · rw [if_pos h]
      rcases List.mem_cons.mp hrow with rfl | hrow
      · refine Or.inl ⟨h, ?_⟩
        rcases hhead row (List.mem_cons_self _ _) with h1 | ⟨_, h2⟩
        · exact absurd (h ▸ h1) (lt_irrefl _)
        · exact h2
      · rcases dedupGo_covers y ys htail row hrow with ⟨h1, h2⟩ | hex
        · refine Or.inl ⟨h ▸ h1, le_trans ?_ h2⟩
          rcases hhead y (List.mem_cons_self _ _) with h3 | ⟨_, h4⟩
          · exact absurd (h ▸ h3) (lt_irrefl _)
          · exact h4
        · exact Or.inr hex
    · rw [if_neg h]
      rcases List.mem_cons.mp hrow with rfl | hrow
      · exact Or.inr ⟨row, List.mem_cons_self _ _, rfl, le_refl _⟩
      · rcases dedupGo_covers y ys htail row hrow with ⟨h1, h2⟩ | ⟨q, hq, h1, h2⟩
        · exact Or.inr ⟨y, List.mem_cons_self _ _, h1.symm ▸ rfl, h2⟩
        · exact Or.inr ⟨q, List.mem_cons.mpr (Or.inr hq), h1, h2⟩

/-- Every right-catalog index occurring in the sorted table is represented in
the deduplicated table by a row at no greater distance. -/
theorem dedupFirst_covers {L R : Type} :
    ∀ l : List (Row L R), List.Sorted lexLe l →
      ∀ row ∈ l,
        ∃ q ∈ dedupFirst l, q.index = row.index ∧ q.distance ≤ row.distance
  | [], _, row, hrow => by simp at hrow
  | x :: xs, hs, row, hrow => by
    rcases List.mem_cons.mp hrow with rfl | hrow
    · exact ⟨row, List.mem_cons_self _ _, rfl, le_refl _⟩
    · rcases dedupGo_covers x xs hs row hrow with ⟨h1, h2⟩ | ⟨q, hq, h1, h2⟩
      · exact ⟨x, List.mem_cons_self _ _, h1.symm, h2⟩
      · exact ⟨q, List.mem_cons.mpr (Or.inr hq), h1, h2⟩

/-! ## Facts about the sorting step -/

theorem sorted_sortRows {L R : Type} (l : List (Row L R)) :
    List.Sorted lexLe (sortRows l) :=
  List.sorted_insertionSort lexLe l

theorem perm_sortRows {L R : Type} (l : List (Row L R)) :
    (sortRows l).Perm l :=
  List.perm_insertionSort lexLe l

theorem mem_sortRows {L R : Type} {l : List (Row L R)} {a : Row L R} :
    a ∈ sortRows l ↔ a ∈ l :=
  (perm_sortRows l).mem_iff

theorem dedupRows_sublist_sortRows {L R : Type} (idx : List (ℕ × ℚ))
    (lt : List L) (rt : List R) (dflt : R) :
    (dedupRows idx lt rt dflt).Sublist (sortRows (hstackRows idx lt rt dflt)) :=
  dedupFirst_sublist _

theorem joinRows_sublist_dedupRows {L R : Type} (maxSep : ℚ)
    (idx : List (ℕ × ℚ)) (lt : List L) (rt : List R) (dflt : R) :
    (joinRows maxSep idx lt rt dflt).Sublist (dedupRows idx lt rt dflt) := by
  rw [joinRows_eq_filter]
  exact List.filter_sublist _

theorem mem_joinRows_iff {L R : Type} {maxSep : ℚ} {idx : List (ℕ × ℚ)}
    {lt : List L} {rt : List R} {dflt : R} {row : Row L R} :
    row ∈ joinRows maxSep idx lt rt dflt ↔
      row ∈ dedupRows idx lt rt dflt ∧ row.distance < maxSep := by
  rw [joinRows_eq_filter, List.mem_filter, decide_eq_true_eq]

theorem filter_length_mono {α : Type} (p q : α → Bool)
    (h : ∀ a, p a = true → q a = true) :
    ∀ l : List α, (l.filter p).length ≤ (l.filter q).length
  | [] => le_refl _
  | x :: xs => by
    simp only [List.filter_cons]
    by_cases hp : p x = true
    · rw [if_pos hp, if_pos (h x hp)]
      simpa using filter_length_mono p q h xs
    · rw [if_neg hp]
      by_cases hq : q x = true
      · rw [if_pos hq]
        exact le_trans (filter_length_mono p q h xs) (Nat.le_succ _)
      · rw [if_neg hq]
        exact filter_length_mono p q h xs

theorem distance_mem_of_mem_hstackRows {L R : Type} {idx : List (ℕ × ℚ)}
    {lt : List L} {rt : List R} {dflt : R} {r : Row L R}
    (h : r ∈ hstackRows idx lt rt dflt) :
    ∃ q ∈ idx, r.index = q.1 ∧ r.distance = q.2 := by
  unfold hstackRows at h
  obtain ⟨p, hp, rfl⟩ := List.mem_map.mp h
  exact ⟨p.1, (List.of_mem_zip hp).1, rfl, rfl⟩

/-! ## Claim theorems -/

/-- C2: for every pair of input catalogs and every tolerance, each
right-catalog record participates in at most one merged row of the output of
`join_catalogs`: the surviving rows carry pairwise distinct right-catalog
indices, and the returned merged catalog is exactly their projection. -/
theorem join_catalogs_no_right_reuse {L R : Type} (maxSep : ℚ)
    (idx : List (ℕ × ℚ)) (lt : List L) (rt : List R) (dflt : R) :
    (joinRows maxSep idx lt rt dflt).Pairwise (fun a b => a.index ≠ b.index) ∧
      join_catalogs maxSep idx lt rt dflt =
        (joinRows maxSep idx lt rt dflt).map (fun r => (r.left, r.right)) := by
  refine ⟨?_, rfl⟩
  have h2 : (dedupRows idx lt rt dflt).Pairwise (fun a b => a.index < b.index) :=
    pairwise_index_lt_dedupFirst _ (sorted_sortRows (hstackRows idx lt rt dflt))
  exact (List.Pairwise.sublist (joinRows_sublist_dedupRows maxSep idx lt rt dflt)
    h2).imp (fun hlt => Nat.ne_of_lt hlt)

/-- C9: the rows of the merged catalog appear in ascending (strictly
increasing) order of the matched right-catalog index: sorting by
(index, distance) and the subsequent mask filtering preserve that order. -/
theorem join_catalogs_output_ordered {L R : Type} (maxSep : ℚ)
    (idx : List (ℕ × ℚ)) (lt : List L) (rt : List R) (dflt : R) :
    (joinRows maxSep idx lt rt dflt).Pairwise (fun a b => a.index < b.index) ∧
      join_catalogs maxSep idx lt rt dflt =
        (joinRows maxSep idx lt rt dflt).map (fun r => (r.left, r.right)) := by
  refine ⟨?_, rfl⟩
  have h2 : (dedupRows idx lt rt dflt).Pairwise (fun a b => a.index < b.index) :=
    pairwise_index_lt_dedupFirst _ (sorted_sortRows (hstackRows idx lt rt dflt))
  exact List.Pairwise.sublist (joinRows_sublist_dedupRows maxSep idx lt rt dflt) h2

/-- C6: for fixed catalogs the number of merged rows is monotonically
non-decreasing in the separation tolerance. -/
theorem join_catalogs_monotone {L R : Type} (t1 t2 : ℚ) (h : t1 ≤ t2)
    (idx : List (ℕ × ℚ)) (lt : List L) (rt : List R) (dflt : R) :
    (join_catalogs t1 idx lt rt dflt).length ≤
      (join_catalogs t2 idx lt rt dflt).length := by
  unfold join_catalogs
  rw [List.length_map, List.length_map, joinRows_eq_filter, joinRows_eq_filter]
  refine filter_length_mono _ _ ?_ _
  intro a ha
  rw [decide_eq_true_eq] at ha ⊢
  exact lt_of_lt_of_le ha h

/-- C6 witness: a concrete instance of the monotonicity theorem. -/
theorem join_catalogs_monotone_witness :
    (join_catalogs 1 [(0, 1)] [10] [20] (20 : ℕ)).length ≤
      (join_catalogs 2 [(0, 1)] [10] [20] 20).length :=
  join_catalogs_monotone 1 2 (by norm_num) [(0, 1)] [10] [20] 20

/-- C3 counterexample: a candidate whose angular distance equals the cutoff
exactly is NOT retained: the source keeps a row only when
`distance < max_separation` (strict), so at `distance = max_separation` the
surviving candidate is dropped, contradicting the claimed
"excluded iff strictly greater". -/
theorem join_catalogs_equal_cutoff_dropped :
    dedupRows [(0, 1)] [10] [20] (20 : ℕ) = [⟨0, 1, 10, 20⟩] ∧
      join_catalogs 1 [(0, 1)] [10] [20] 20 = [] := by
  constructor <;> decide

/-- C3 (amended): a candidate surviving deduplication is excluded from the
result if and only if its angular distance is greater than or equal to
`max_separation`; in particular a candidate at exactly `max_separation` is
dropped. -/
theorem join_catalogs_cutoff_iff {L R : Type} (maxSep : ℚ)
    (idx : List (ℕ × ℚ)) (lt : List L) (rt : List R) (dflt : R)
    (row : Row L R) (h : row ∈ dedupRows idx lt rt dflt) :
    (row ∉ joinRows maxSep idx lt rt dflt ↔ maxSep ≤ row.distance) ∧
      (row.distance = maxSep → row ∉ joinRows maxSep idx lt rt dflt) := by
  have hiff : row ∈ joinRows maxSep idx lt rt dflt ↔ row.distance < maxSep :=
    ⟨fun h2 => (mem_joinRows_iff.mp h2).2, fun h2 => mem_joinRows_iff.mpr ⟨h, h2⟩⟩
  constructor
  · rw [hiff, not_lt]
  · intro he
    rw [hiff, he]
    exact lt_irrefl _

/-- C3 witness: instantiating the amended cutoff theorem at a concrete
deduplicated candidate. -/
theorem join_catalogs_cutoff_iff_witness :
    (⟨0, 5, 10, 20⟩ : Row ℕ ℕ) ∉ joinRows 2 [(0, 5)] [10] [20] 20 :=
  ((join_catalogs_cutoff_iff 2 [(0, 5)] [10] [20] 20 ⟨0, 5, 10, 20⟩
    (by decide)).1).mpr (by norm_num)

/-- C4 counterexample: with a non-positive tolerance (here 0) and a
non-empty input, `join_catalogs` raises nothing and performs the full
computation, returning an ordinary (empty) catalog; the source contains no
validation of the tolerance and no `InvalidAngleError`. -/
theorem join_catalogs_no_invalid_angle_error :
    join_catalogs 0 [(0, 1)] [10] [20] (20 : ℕ) = [] := by
  decide

/-- C4 (amended): `join_catalogs` never fails on a non-positive tolerance;
since the distance cutoff is a strict comparison and angular distances are
non-negative, a tolerance `≤ 0` simply yields an empty merged catalog. -/
theorem join_catalogs_nonpositive_sep_empty {L R : Type} (maxSep : ℚ)
    (hm : maxSep ≤ 0) (idx : List (ℕ × ℚ)) (hd : ∀ q ∈ idx, 0 ≤ q.2)
    (lt : List L) (rt : List R) (dflt : R) :
    join_catalogs maxSep idx lt rt dflt = [] := by
  unfold join_catalogs
  rw [joinRows_eq_filter, List.filter_eq_nil_iff.mpr, List.map_nil]
  intro r hr
  have hmem : r ∈ hstackRows idx lt rt dflt :=
    mem_sortRows.mp ((dedupRows_sublist_sortRows idx lt rt dflt).subset hr)
  obtain ⟨q, hq, _, hdist⟩ := distance_mem_of_mem_hstackRows hmem
  rw [decide_eq_true_eq, hdist]
  exact not_lt.mpr (le_trans hm (hd q hq))

/-- C4 witness: the amended theorem at a concrete non-positive tolerance. -/
theorem join_catalogs_nonpositive_sep_empty_witness :
    join_catalogs (-1) [(0, 1)] [10] [20] (20 : ℕ) = [] :=
  join_catalogs_nonpositive_sep_empty (-1) (by norm_num) [(0, 1)]
    (by norm_num) [10] [20] 20

/-- C10: if the closest candidate of a right-catalog record fails the
distance cutoff, no merged row is produced for that right record at all;
in particular no farther candidate of the same right record is promoted. -/
theorem join_catalogs_no_promotion {L R : Type} (maxSep : ℚ)
    (idx : List (ℕ × ℚ)) (lt : List L) (rt : List R) (dflt : R) (r : ℕ)
    (closest : Row L R) (_hmem : closest ∈ hstackRows idx lt rt dflt)
    (_hidx : closest.index = r)
    (hmin : ∀ row ∈ hstackRows idx lt rt dflt, row.index = r →
      closest.distance ≤ row.distance)
    (hfar : maxSep ≤ closest.distance) :
    ∀ row ∈ joinRows maxSep idx lt rt dflt, row.index ≠ r := by
  intro row hrow hr
  obtain ⟨hded, hlt⟩ := mem_joinRows_iff.mp hrow
  have hrowmem : row ∈ hstackRows idx lt rt dflt :=
    mem_sortRows.mp ((dedupRows_sublist_sortRows idx lt rt dflt).subset hded)
  exact absurd hlt (not_lt.mpr (le_trans hfar (hmin row hrowmem hr)))

/-- C10 witness: both candidates of right record 0 lie beyond the cutoff;
the closer one is not in the output (nor is anything else for index 0). -/
theorem join_catalogs_no_promotion_witness :
    (⟨0, 2, 10, 20⟩ : Row ℕ ℕ) ∉ joinRows 1 [(0, 2), (0, 3)] [10, 11] [20] 20 :=
  fun hmem =>
    join_catalogs_no_promotion 1 [(0, 2), (0, 3)] [10, 11] [20] 20 0
      ⟨0, 2, 10, 20⟩ (by decide) rfl (by decide) (by norm_num)
      ⟨0, 2, 10, 20⟩ hmem rfl

/-- C1: the deduplication step of `join_catalogs` keeps, for every
right-catalog index that occurs among the candidates, exactly the candidate
with the smallest angular distance to it, and every losing candidate is
absent from the deduplicated table and from the merged output entirely; the
output rows are a sub-sequence of the candidate rows, so a losing left
record is never reassigned to a different right-catalog record. -/
theorem join_catalogs_closer_wins {L R : Type} (maxSep : ℚ)
    (idx : List (ℕ × ℚ)) (lt : List L) (rt : List R) (dflt : R) :
    ((joinRows maxSep idx lt rt dflt).Sublist
        (sortRows (hstackRows idx lt rt dflt))) ∧
      (∀ row ∈ hstackRows idx lt rt dflt,
        ∃ q ∈ dedupRows idx lt rt dflt, q.index = row.index ∧
          ∀ other ∈ hstackRows idx lt rt dflt, other.index = q.index →
            q.distance ≤ other.distance) ∧
      (∀ row ∈ hstackRows idx lt rt dflt,
        (∃ closer ∈ hstackRows idx lt rt dflt, closer.index = row.index ∧
            closer.distance < row.distance) →
          row ∉ dedupRows idx lt rt dflt ∧
            row ∉ joinRows maxSep idx lt rt dflt) := by
  have hsorted := sorted_sortRows (hstackRows idx lt rt dflt)
  refine ⟨(joinRows_sublist_dedupRows maxSep idx lt rt dflt).trans
    (dedupRows_sublist_sortRows idx lt rt dflt), ?_, ?_⟩
  · intro row hrow
    obtain ⟨q, hq, hidx, _⟩ :=
      dedupFirst_covers _ hsorted row (mem_sortRows.mpr hrow)
    refine ⟨q, hq, hidx, ?_⟩
    intro other hother hoidx
    exact dedupFirst_min _ hsorted q hq other (mem_sortRows.mpr hother) hoidx
  · intro row hrow ⟨closer, hcmem, hcidx, hclt⟩
    have hnotded : row ∉ dedupRows idx lt rt dflt := by
      intro hded
      have := dedupFirst_min _ hsorted row hded closer
        (mem_sortRows.mpr hcmem) hcidx
      exact absurd hclt (not_lt.mpr this)
    exact ⟨hnotded, fun hjoin =>
      hnotded ((joinRows_sublist_dedupRows maxSep idx lt rt dflt).subset hjoin)⟩

/-- C1 witness: two left records (10 and 11) both nearest to right record 0,
with distances 1 < 2; the farther candidate is dropped from the
deduplicated table and from the merged output. -/
theorem join_catalogs_closer_wins_witness :
    (⟨0, 2, 11, 20⟩ : Row ℕ ℕ) ∉ dedupRows [(0, 1), (0, 2)] [10, 11] [20] 20 ∧
      (⟨0, 2, 11, 20⟩ : Row ℕ ℕ) ∉ joinRows 3 [(0, 1), (0, 2)] [10, 11] [20] 20 :=
  (join_catalogs_closer_wins 3 [(0, 1), (0, 2)] [10, 11] [20] 20).2.2
    ⟨0, 2, 11, 20⟩ (by decide)
    ⟨⟨0, 1, 10, 20⟩, by decide, by decide, by decide⟩

/-! ## The full match operation (candidate generation + join) -/

/-- Modelled from the spec: step 1 of the `CatalogMatcher.match` contract
(§4.1), the nearest-neighbour candidate generation that the source delegates
to the external library call `SkyCoord.match_to_catalog_sky`, which is not
part of this repository.  `bestMatch` returns the index of a minimal element
of the distance list together with that distance, ties broken by lowest
index (the first minimum), and no candidate for an empty list. -/
def bestMatch (ds : List ℚ) : Option (ℕ × ℚ) :=
  ds.enum.foldl
    (fun acc p =>
      match acc with
      | none => some p
      | some q => if p.2 < q.2 then some p else some q)
    none

/-- Modelled from the spec: one `MatchCandidate` per left record — the index
of its nearest right-catalog record and the angular distance to it, computed
by the supplied angular-distance function; an empty right catalog yields no
candidates. -/
def matchCandidates {L R : Type} (dist : L → R → ℚ) (lt : List L)
    (rt : List R) : List (ℕ × ℚ) :=
  (lt.map (fun l => bestMatch (rt.map (dist l)))).reduceOption

/-- The full match operation of the spec: nearest-neighbour candidate
generation followed by `join_catalogs`. -/
def match_catalogs {L R : Type} (maxSep : ℚ) (dist : L → R → ℚ) (lt : List L)
    (rt : List R) (dflt : R) : List (L × R) :=
  join_catalogs maxSep (matchCandidates dist lt rt) lt rt dflt

/-- C5: matching an empty left catalog against any right catalog, or any
left catalog against an empty right catalog, returns an empty merged catalog
(and, the operation being total, raises no error). -/
theorem match_catalogs_empty {L R : Type} (maxSep : ℚ) (dist : L → R → ℚ)
    (lt : List L) (rt : List R) (dflt : R) :
    match_catalogs maxSep dist [] rt dflt = [] ∧
      match_catalogs maxSep dist lt [] dflt = [] := by
  constructor
  · rfl
  · have hc : matchCandidates dist lt [] = [] := by
      unfold matchCandidates
      simp [List.reduceOption, List.filterMap_eq_nil_iff, bestMatch]
    unfold match_catalogs
    rw [hc]
    rfl

/-! ## Field-name collision handling in the merged record -/

/-- Modelled from the spec: the `MergedRecord` construction (§3, §4.1 step 5).
The source builds the merged record by `table.hstack` over
`[index_table, left_table, right_table[...]]`, whose documented behaviour
renames a column name occurring in several of the stacked tables by
appending the position of its table: a name shared by the left table
(position 2) and the right table (position 3) becomes `name_2` on the left
copy and `name_3` on the right copy (the caller then cosmetically maps these
suffixes to band names).  A record is a list of (field name, value) pairs. -/
def hstackFields {V : Type} (lt rt : List (String × V)) : List (String × V) :=
  lt.map (fun f => (if rt.any (fun g => g.1 == f.1) then f.1 ++ "_2" else f.1, f.2)) ++
    rt.map (fun f => (if lt.any (fun g => g.1 == f.1) then f.1 ++ "_3" else f.1, f.2))

/-- C7: when the left and right records share a field name, the merged
record exposes both values under distinct suffix-disambiguated names;
no value overwrites another, and every left field and every right field
appears in the merged record. -/
theorem hstackFields_collision {V : Type} (lt rt : List (String × V))
    (n : String) (lv rv : V) (hl : (n, lv) ∈ lt) (hr : (n, rv) ∈ rt) :
    (n ++ "_2", lv) ∈ hstackFields lt rt ∧
      (n ++ "_3", rv) ∈ hstackFields lt rt ∧
      n ++ "_2" ≠ n ++ "_3" ∧
      (hstackFields lt rt).map Prod.snd = lt.map Prod.snd ++ rt.map Prod.snd ∧
      (hstackFields lt rt).length = lt.length + rt.length := by
  refine ⟨?_, ?_, ?_, ?_, ?_⟩
  · refine List.mem_append.mpr (Or.inl (List.mem_map.mpr ⟨(n, lv), hl, ?_⟩))
    have hcol : rt.any (fun g => g.1 == n) = true :=
      List.any_eq_true.mpr ⟨(n, rv), hr, by simp⟩
    simp [hcol]
  · refine List.mem_append.mpr (Or.inr (List.mem_map.mpr ⟨(n, rv), hr, ?_⟩))
    have hcol : lt.any (fun g => g.1 == n) = true :=
      List.any_eq_true.mpr ⟨(n, lv), hl, by simp⟩
    simp [hcol]
  · intro h
    have hd : (n ++ "_2").data = (n ++ "_3").data := congrArg String.data h
    rw [String.data_append, String.data_append] at hd
    exact absurd (List.append_cancel_left hd) (by decide)
  · simp only [hstackFields, List.map_append, List.map_map]
    congr 1
  · simp [hstackFields]

/-- C7 witness: a shared field named `mag` survives on both sides with
distinct names. -/
theorem hstackFields_collision_witness :
    ("mag" ++ "_2", 1) ∈ hstackFields [("mag", 1)] [("mag", (2 : ℕ))] ∧
      ("mag" ++ "_3", 2) ∈ hstackFields [("mag", 1)] [("mag", (2 : ℕ))] ∧
      "mag" ++ "_2" ≠ "mag" ++ "_3" ∧
      (hstackFields [("mag", 1)] [("mag", (2 : ℕ))]).map Prod.snd =
        [("mag", (1 : ℕ))].map Prod.snd ++ [("mag", (2 : ℕ))].map Prod.snd ∧
      (hstackFields [("mag", 1)] [("mag", (2 : ℕ))]).length =
        [("mag", (1 : ℕ))].length + [("mag", (2 : ℕ))].length :=
  hstackFields_collision [("mag", 1)] [("mag", 2)] "mag" 1 2 (by decide)
    (by decide)

end CatalogMatch
